import Mathlib

/-!
Verification development for the anthropic-cerebras-shim repository.

The repository translates between the Anthropic Messages protocol and an
OpenAI-style chat-completions protocol (Cerebras).  This file gives a shallow
embedding of the translator code:

* `src/translators/response.ts` — `translateResponse`, `translateStopReason`,
  `createStreamState`, `translateStreamChunk`, `createMessageStartEvent`
  (the streaming state machine);
* `src/translators/request.ts` — `translateMessage`, `cleanSchema`
  (the JSON-Schema sanitizer), `translateTool`, `translateToolChoice`.

JavaScript data is modelled as follows: JS objects/records are association
lists `List (String × Json)` in insertion order (assignment `r[k] = v`
replaces the value at the first occurrence of `k`, else appends, mirroring JS
key-ordering semantics); `undefined`/`null` optional fields are `Option`;
JS truthiness of a value is the `truthy` function below (empty strings, `0`,
`false`, `null` are falsy; every object and array is truthy); a thrown
exception is an explicit error value.  `JSON.parse` is modelled by the
recursive-descent parser `parseJson` below (covering the integral-number
fragment of JSON; floating-point literals and unicode escapes are outside the
model, and no claim depends on them).
-/

/-- A JSON value.  Numbers are modelled as integers: the translator code never
computes with numbers, and every number a claim touches is integral. -/
inductive Json where
  | null : Json
  | bool : Bool → Json
  | num : Int → Json
  | str : String → Json
  | arr : List Json → Json
  | obj : List (String × Json) → Json
deriving Repr

/-- The opening-brace character, U+007B. -/
def lbrace : Char := Char.ofNat 123

/-- The closing-brace character, U+007D. -/
def rbrace : Char := Char.ofNat 125

/-- JS truthiness of a JSON value: `null`, `false`, `0` and the empty string
are falsy; every other value, including `[]` and the empty object, is truthy. -/
def truthy : Json → Bool
  | .null => false
  | .bool b => b
  | .num n => n != 0
  | .str s => s != ""
  | .arr _ => true
  | .obj _ => true

/-- JS truthiness of an optional string (`undefined`, `null` and `""` are
falsy). -/
def truthyStr (o : Option String) : Bool :=
  match o with
  | some s => s != ""
  | none => false

/-- Property read `r[k]` on a JS object: the value at the first occurrence of
key `k`, if any. -/
def jsLookup (r : List (String × Json)) (k : String) : Option Json :=
  match r with
  | [] => none
  | (k', v) :: rest => if k' = k then some v else jsLookup rest k

/-- Property assignment `r[k] = v` on a JS object: replaces the value at the
first occurrence of `k` keeping its position, otherwise appends the new key at
the end (JS insertion-order semantics for string keys). -/
def jsInsert (r : List (String × Json)) (k : String) (v : Json) : List (String × Json) :=
  match r with
  | [] => [(k, v)]
  | (k', v') :: rest => if k' = k then (k', v) :: rest else (k', v') :: jsInsert rest k v

/-- Truthiness of the property `r[k]` (an absent key is falsy). -/
def truthyKey (r : List (String × Json)) (k : String) : Bool :=
  match jsLookup r k with
  | some v => truthy v
  | none => false

/-- Skip JSON whitespace. -/
def skipWs : List Char → List Char
  | c :: rest => if c = ' ' ∨ c = '\t' ∨ c = '\n' ∨ c = '\r' then skipWs rest else c :: rest
  | [] => []

/-- Parse the body of a JSON string literal (after the opening quote), with a
reversed accumulator.  Models the common escapes; a `\u` escape is outside the
model. -/
def parseStringBody (acc : List Char) : List Char → Option (String × List Char)
  | [] => none
  | c :: rest =>
    if c = '"' then some (String.mk acc.reverse, rest)
    else if c = '\\' then
      match rest with
      | [] => none
      | e :: rest' =>
        let dec : Option Char :=
          if e = '"' then some '"'
          else if e = '\\' then some '\\'
          else if e = '/' then some '/'
          else if e = 'n' then some '\n'
          else if e = 't' then some '\t'
          else if e = 'r' then some '\r'
          else if e = 'b' then some (Char.ofNat 8)
          else if e = 'f' then some (Char.ofNat 12)
          else none
        match dec with
        | some d => parseStringBody (d :: acc) rest'
        | none => none
    else parseStringBody (c :: acc) rest

/-- Split a leading run of decimal digits. -/
def takeDigits : List Char → List Char × List Char
  | [] => ([], [])
  | c :: rest =>
    if 48 ≤ c.toNat ∧ c.toNat ≤ 57 then
      let (d, r) := takeDigits rest
      (c :: d, r)
    else ([], c :: rest)

/-- Numeric value of a digit run. -/
def digitsToNat (cs : List Char) : Nat :=
  cs.foldl (fun a c => 10 * a + (c.toNat - 48)) 0

mutual

/-- Model of `JSON.parse`'s value parser (fuel-indexed recursive descent).
Returns the parsed value and the unconsumed remainder. -/
def parseVal : Nat → List Char → Option (Json × List Char)
  | 0, _ => none
  | fuel + 1, cs =>
    match skipWs cs with
    | [] => none
    | c :: rest =>
      if c = lbrace then
        match skipWs rest with
        | c' :: rest' =>
          if c' = rbrace then some (.obj [], rest')
          else
            match parseMembers fuel (c' :: rest') [] with
            | some (fs, r) => some (.obj fs, r)
            | none => none
        | [] => none
      else if c = '[' then
        match skipWs rest with
        | ']' :: rest' => some (.arr [], rest')
        | r =>
          match parseElems fuel r [] with
          | some (xs, r') => some (.arr xs, r')
          | none => none
      else if c = '"' then
        match parseStringBody [] rest with
        | some (s, r) => some (.str s, r)
        | none => none
      else if c = 't' then
        match rest with
        | 'r' :: 'u' :: 'e' :: r => some (.bool true, r)
        | _ => none
      else if c = 'f' then
        match rest with
        | 'a' :: 'l' :: 's' :: 'e' :: r => some (.bool false, r)
        | _ => none
      else if c = 'n' then
        match rest with
        | 'u' :: 'l' :: 'l' :: r => some (.null, r)
        | _ => none
      else if c = '-' then
        match takeDigits rest with
        | ([], _) => none
        | (ds, r) => some (.num (-(digitsToNat ds : Int)), r)
      else if 48 ≤ c.toNat ∧ c.toNat ≤ 57 then
        match takeDigits (c :: rest) with
        | (ds, r) => some (.num (digitsToNat ds : Int), r)
      else none

/-- Members of a JSON object (positioned at a key, after `{` and any
whitespace). -/
def parseMembers (fuel : Nat) (cs : List Char) (acc : List (String × Json)) :
    Option (List (String × Json) × List Char) :=
  match fuel with
  | 0 => none
  | fuel + 1 =>
    match skipWs cs with
    | '"' :: rest =>
      match parseStringBody [] rest with
      | some (k, r1) =>
        match skipWs r1 with
        | ':' :: r2 =>
          match parseVal fuel r2 with
          | some (v, r3) =>
            match skipWs r3 with
            | c :: r4 =>
              if c = ',' then parseMembers fuel r4 (acc ++ [(k, v)])
              else if c = rbrace then some (acc ++ [(k, v)], r4)
              else none
            | [] => none
          | none => none
        | _ => none
      | none => none
    | _ => none

/-- Elements of a JSON array (positioned at a value). -/
def parseElems (fuel : Nat) (cs : List Char) (acc : List Json) :
    Option (List Json × List Char) :=
  match fuel with
  | 0 => none
  | fuel + 1 =>
    match parseVal fuel cs with
    | some (v, r1) =>
      match skipWs r1 with
      | ',' :: r2 => parseElems fuel r2 (acc ++ [v])
      | ']' :: r2 => some (acc ++ [v], r2)
      | _ => none
    | none => none

end

/-- Model of `JSON.parse`.  `none` models a thrown `SyntaxError`. -/
def parseJson (s : String) : Option Json :=
  match parseVal (2 * s.length + 4) s.data with
  | some (j, rest) => if skipWs rest = [] then some j else none
  | none => none


/-! ## Protocol data types

Shapes from `src/types/cerebras.ts` and `src/types/anthropic.ts`.  Constant
literal discriminants (`type: "function"`, `role: "assistant"`, …) are omitted
from the embedding; optional fields are `Option`. -/

/-- Cerebras `ToolCall.function`. -/
structure FunctionCall where
  name : String
  arguments : String
deriving Repr, DecidableEq

/-- Cerebras `ToolCall` (the constant `type: "function"` field is omitted). -/
structure ToolCall where
  id : String
  function : FunctionCall
deriving Repr, DecidableEq

/-- Anthropic `StopReason`. -/
inductive StopReason where
  | end_turn
  | max_tokens
  | stop_sequence
  | tool_use
deriving Repr, DecidableEq

/-- Anthropic `ImageSource` (`type` is `"base64"` or `"url"`). -/
structure ImageSource where
  type : String
  media_type : Option String
  data : Option String
  url : Option String
deriving Repr, DecidableEq

mutual

/-- Anthropic `ContentBlock`: text, image, tool_use or tool_result. -/
inductive ContentBlock where
  | text (text : String)
  | image (source : ImageSource)
  | tool_use (id : String) (name : String) (input : Json)
  | tool_result (tool_use_id : String) (content : ToolResultContent) (is_error : Option Bool)

/-- The `content` of a `ToolResultBlock`: a string or a block list. -/
inductive ToolResultContent where
  | str (s : String)
  | blocks (bs : List ContentBlock)

end

/-- Anthropic `ContentBlockDeltaEvent.delta`. -/
inductive BlockDelta where
  | text_delta (text : String)
  | input_json_delta (json : String)
deriving Repr, DecidableEq

/-- Anthropic `StreamEvent`.  `message_delta` carries
`delta.stop_reason`, `delta.stop_sequence` and `usage.output_tokens`;
`message_start` carries the fields of the initial message shell that are not
constant. -/
inductive StreamEvent where
  | message_start (id : String) (model : String) (input_tokens : Nat)
  | ping
  | content_block_start (index : Int) (content_block : ContentBlock)
  | content_block_delta (index : Int) (delta : BlockDelta)
  | content_block_stop (index : Int)
  | message_delta (stop_reason : StopReason) (stop_sequence : Option String) (output_tokens : Nat)
  | message_stop
  | error (type : String) (message : String)

/-- Cerebras `DeltaToolCall.function`. -/
structure DeltaFunction where
  name : Option String
  arguments : Option String
deriving Repr, DecidableEq

/-- Cerebras `DeltaToolCall`. -/
structure DeltaToolCall where
  index : Nat
  id : Option String
  function : Option DeltaFunction
deriving Repr, DecidableEq

/-- Cerebras `DeltaMessage`. -/
structure DeltaMessage where
  content : Option String
  tool_calls : Option (List DeltaToolCall)
deriving Repr, DecidableEq

/-- Cerebras `ChunkChoice`.  `finish_reason` is kept as an open string so the
code's `default` switch branch is a real case (`null` is `none`). -/
structure ChunkChoice where
  delta : DeltaMessage
  finish_reason : Option String
deriving Repr, DecidableEq

/-- Cerebras `ChatCompletionsChunk` (only the `choices` field is read by the
translator). -/
structure ChatCompletionsChunk where
  choices : List ChunkChoice
deriving Repr, DecidableEq

/-- Cerebras `ResponseMessage` (the constant `role` is omitted; `reasoning` is
never read by the translator and is omitted). -/
structure ResponseMessage where
  content : Option String
  tool_calls : Option (List ToolCall)
deriving Repr, DecidableEq

/-- Cerebras non-streaming `Choice`. -/
structure Choice where
  message : ResponseMessage
  finish_reason : Option String
deriving Repr, DecidableEq

/-- Cerebras `Usage`. -/
structure Usage where
  prompt_tokens : Nat
  completion_tokens : Nat
deriving Repr, DecidableEq

/-- Cerebras `ChatCompletionsResponse` (fields the translator reads). -/
structure ChatCompletionsResponse where
  id : String
  choices : List Choice
  usage : Usage
deriving Repr, DecidableEq

/-- Anthropic `Usage`. -/
structure AnthropicUsage where
  input_tokens : Nat
  output_tokens : Nat
deriving Repr, DecidableEq

/-- Anthropic `MessagesResponse` (constant `type`/`role` fields omitted). -/
structure MessagesResponse where
  id : String
  model : String
  content : List ContentBlock
  stop_reason : Option StopReason
  stop_sequence : Option String
  usage : AnthropicUsage

/-! ## Non-streaming response translation (`src/translators/response.ts`) -/

/-- `translateStopReason` from `response.ts`:  any non-empty tool-call list
forces `tool_use`; otherwise the finish reason is mapped by the switch, whose
`default` (including `null`) is `null`. -/
def translateStopReason (finishReason : Option String) (toolCalls : Option (List ToolCall)) :
    Option StopReason :=
  if (match toolCalls with | some l => decide (l.length > 0) | none => false) then
    some .tool_use
  else
    match finishReason with
    | none => none
    | some r =>
      if r = "stop" then some .end_turn
      else if r = "length" then some .max_tokens
      else if r = "tool_calls" then some .tool_use
      else if r = "content_filter" then some .end_turn
      else none

/-- Conditions thrown by the non-streaming translator: `emptyReply` models
`throw new Error("No choices in Cerebras response")`, and
`malformedToolArguments` models a `JSON.parse` exception on a tool call's
argument string. -/
inductive TranslateError where
  | emptyReply
  | malformedToolArguments
deriving Repr, DecidableEq

/-- The tool-call loop of `translateResponse`: each Cerebras tool call becomes
an Anthropic `tool_use` block whose `input` is `JSON.parse` of the argument
string (a parse failure propagates as a thrown condition). -/
def translateToolCallBlocks : List ToolCall → Except TranslateError (List ContentBlock)
  | [] => .ok []
  | tc :: rest =>
    match parseJson tc.function.arguments with
    | some input =>
      match translateToolCallBlocks rest with
      | .ok bs => .ok (.tool_use tc.id tc.function.name input :: bs)
      | .error e => .error e
    | none => .error .malformedToolArguments

/-- `translateResponse` from `response.ts`. -/
def translateResponse (cerebrasResponse : ChatCompletionsResponse) (originalModel : String) :
    Except TranslateError MessagesResponse :=
  match cerebrasResponse.choices.head? with
  | none => .error .emptyReply
  | some choice =>
    let textBlocks : List ContentBlock :=
      match choice.message.content with
      | some c => if c = "" then [] else [.text c]
      | none => []
    let toolBlocks : Except TranslateError (List ContentBlock) :=
      match choice.message.tool_calls with
      | some tcs => translateToolCallBlocks tcs
      | none => .ok []
    match toolBlocks with
    | .error e => .error e
    | .ok tbs =>
      let content := textBlocks ++ tbs
      let content := if content.isEmpty then [ContentBlock.text ""] else content
      .ok
        { id := "msg_" ++ cerebrasResponse.id
          model := originalModel
          content := content
          stop_reason := translateStopReason choice.finish_reason choice.message.tool_calls
          stop_sequence := none
          usage :=
            { input_tokens := cerebrasResponse.usage.prompt_tokens
              output_tokens := cerebrasResponse.usage.completion_tokens } }

/-! ## Streaming translation (`src/translators/response.ts`)

`translateStreamChunk` mutates a `StreamState` in place and returns an event
list; here it is explicit state passing.  Each site that executes
`state.currentBlockIndex++` (opening a text block, registering a tool call) is
additionally recorded in an `assigned` trace, so that claims about index
assignment are about the function itself.  A thrown `JSON.parse` exception in
the finish branch is the `threw` flag: the state mutations made before the
throw are kept (JS mutates in place), and the caller never receives the
event list of a throwing call. -/

/-- Per-tool-call entry of `StreamState.toolCallStates`. -/
structure ToolCallState where
  id : String
  name : String
  argumentsBuffer : String
  startEventSent : Bool
deriving Repr, DecidableEq

/-- `StreamState` from `response.ts`.  The JS `Map` keyed by provider tool-call
position is an association list in insertion order. -/
structure StreamState where
  messageId : String
  model : String
  contentBlocks : List ContentBlock
  currentBlockIndex : Int
  toolCallStates : List (Nat × ToolCallState)
  inputTokens : Nat
  outputTokens : Nat
  textBuffer : String
  textBlockStarted : Bool

/-- `Map.get` on the tool-call map. -/
def mapGet (m : List (Nat × ToolCallState)) (k : Nat) : Option ToolCallState :=
  match m with
  | [] => none
  | (k', v) :: rest => if k' = k then some v else mapGet rest k

/-- `Map.set` on the tool-call map: updates in place, or appends a new key
(JS `Map` preserves insertion order). -/
def mapSet (m : List (Nat × ToolCallState)) (k : Nat) (v : ToolCallState) :
    List (Nat × ToolCallState) :=
  match m with
  | [] => [(k, v)]
  | (k', v') :: rest => if k' = k then (k', v) :: rest else (k', v') :: mapSet rest k v

/-- `createStreamState`.  The `generateId()` call (24 random alphanumerics) is
modelled by the `freshId` parameter. -/
def createStreamState (originalModel : String) (freshId : String) : StreamState :=
  { messageId := "msg_" ++ freshId
    model := originalModel
    contentBlocks := []
    currentBlockIndex := -1
    toolCallStates := []
    inputTokens := 0
    outputTokens := 0
    textBuffer := ""
    textBlockStarted := false }

/-- The text-delta branch of `translateStreamChunk`: on a truthy
`delta.content`, open a text block if none is open (incrementing the running
index and emitting `content_block_start`), append to the accumulation buffer
and emit a `text_delta` carrying exactly the incremental delta.
Returns (events, assigned indices, state). -/
def textStep (content : Option String) (s : StreamState) :
    List StreamEvent × List Int × StreamState :=
  match content with
  | none => ([], [], s)
  | some c =>
    if c = "" then ([], [], s)
    else
      let opened : List StreamEvent × List Int × StreamState :=
        if s.textBlockStarted then ([], [], s)
        else
          let idx := s.currentBlockIndex + 1
          ([StreamEvent.content_block_start idx (.text "")], [idx],
            { s with textBlockStarted := true, currentBlockIndex := idx })
      let s2 := { opened.2.2 with textBuffer := opened.2.2.textBuffer ++ c }
      (opened.1 ++ [StreamEvent.content_block_delta s2.currentBlockIndex (.text_delta c)],
        opened.2.1, s2)

/-- The close-text-if-needed step at the head of the tool-call branch: a text
block that is open *and has a non-empty buffer* is stopped, finalized into
`contentBlocks`, and its flag and buffer are cleared. -/
def closeTextIfNeeded (s : StreamState) : List StreamEvent × StreamState :=
  if s.textBlockStarted ∧ s.textBuffer ≠ "" then
    ([StreamEvent.content_block_stop s.currentBlockIndex],
      { s with
        contentBlocks := s.contentBlocks ++ [.text s.textBuffer]
        textBlockStarted := false
        textBuffer := "" })
  else ([], s)

/-- Processing of one `DeltaToolCall` inside the tool-call loop: register an
unseen positional index carrying a truthy id (incrementing the running index),
update the recorded name, emit the deferred `content_block_start` once id and
name are both truthy, and append truthy argument text to the buffer while
emitting an `input_json_delta` with exactly the incremental fragment.  Start
and delta events are emitted at the *current* running index, as in the
source. -/
def toolCallStep (tc : DeltaToolCall) (s : StreamState) :
    List StreamEvent × List Int × StreamState :=
  let reg : List Int × StreamState :=
    match mapGet s.toolCallStates tc.index with
    | some _ => ([], s)
    | none =>
      match tc.id with
      | none => ([], s)
      | some tid =>
        if tid = "" then ([], s)
        else
          let idx := s.currentBlockIndex + 1
          ([idx],
            { s with
              currentBlockIndex := idx
              toolCallStates := mapSet s.toolCallStates tc.index
                { id := tid
                  name := (tc.function.bind (·.name)).getD ""
                  argumentsBuffer := ""
                  startEventSent := false } })
  let asNew := reg.1
  let s1 := reg.2
  match mapGet s1.toolCallStates tc.index with
  | none => ([], asNew, s1)
  | some ts0 =>
    let ts1 :=
      match tc.function.bind (·.name) with
      | some n => if n = "" then ts0 else { ts0 with name := n }
      | none => ts0
    let started : List StreamEvent × ToolCallState :=
      if ¬ts1.startEventSent ∧ ts1.id ≠ "" ∧ ts1.name ≠ "" then
        ([StreamEvent.content_block_start s1.currentBlockIndex
            (.tool_use ts1.id ts1.name (.obj []))],
          { ts1 with startEventSent := true })
      else ([], ts1)
    let argsOut : List StreamEvent × ToolCallState :=
      match tc.function.bind (·.arguments) with
      | some a =>
        if a = "" then ([], started.2)
        else
          ([StreamEvent.content_block_delta s1.currentBlockIndex (.input_json_delta a)],
            { started.2 with argumentsBuffer := started.2.argumentsBuffer ++ a })
      | none => ([], started.2)
    (started.1 ++ argsOut.1, asNew,
      { s1 with toolCallStates := mapSet s1.toolCallStates tc.index argsOut.2 })

/-- The `for (const toolCall of delta.tool_calls)` loop. -/
def toolCallLoop (tcs : List DeltaToolCall) (s : StreamState) :
    List StreamEvent × List Int × StreamState :=
  match tcs with
  | [] => ([], [], s)
  | tc :: rest =>
    let h := toolCallStep tc s
    let t := toolCallLoop rest h.2.2
    (h.1 ++ t.1, h.2.1 ++ t.2.1, t.2.2)

/-- The tool-call branch of `translateStreamChunk`: taken whenever
`delta.tool_calls` is present (a present empty array still closes an open
non-empty text block). -/
def toolCallsStep (toolCalls : Option (List DeltaToolCall)) (s : StreamState) :
    List StreamEvent × List Int × StreamState :=
  match toolCalls with
  | none => ([], [], s)
  | some tcs =>
    let cl := closeTextIfNeeded s
    let lp := toolCallLoop tcs cl.2
    (cl.1 ++ lp.1, lp.2.1, lp.2.2)

/-- Closing an open text block in the finish branch: unconditional when the
flag is set (the buffer may be empty), and — unlike the tool-call-branch
close — the flag and buffer are *not* cleared by the source here. -/
def finishTextClose (s : StreamState) : List StreamEvent × StreamState :=
  if s.textBlockStarted then
    ([StreamEvent.content_block_stop s.currentBlockIndex],
      { s with contentBlocks := s.contentBlocks ++ [.text s.textBuffer] })
  else ([], s)

/-- The finish-branch loop over `state.toolCallStates`: every entry whose
start event was emitted gets a `content_block_stop` at
`currentBlockIndex - (size - 1 - index)` (integer arithmetic on the *map key*
`index`) and is finalized with its accumulated arguments parsed
(`{}` when the buffer is empty; a parse failure is a thrown exception, which
keeps the blocks finalized before it and loses the event list).
Returns (events, finalized blocks in order, threw). -/
def finishToolLoop (cbi : Int) (size : Nat) :
    List (Nat × ToolCallState) → List StreamEvent × List ContentBlock × Bool
  | [] => ([], [], false)
  | (idx, ts) :: rest =>
    if ts.startEventSent then
      let stopEv := StreamEvent.content_block_stop (cbi - ((size : Int) - 1 - (idx : Int)))
      match (if ts.argumentsBuffer = "" then some (Json.obj []) else parseJson ts.argumentsBuffer) with
      | some input =>
        let (evR, bsR, thR) := finishToolLoop cbi size rest
        (stopEv :: evR, ContentBlock.tool_use ts.id ts.name input :: bsR, thR)
      | none => ([stopEv], [], true)
    else finishToolLoop cbi size rest

/-- The dummy tool-call list the source builds to reuse `translateStopReason`
on the streaming path when any tool-call unit was registered. -/
def dummyToolCalls : List ToolCall :=
  [{ id := "", function := { name := "", arguments := "" } }]

/-- The finish branch of `translateStreamChunk`: close any open text block,
close every started tool-call block, then emit `message_delta` (stop reason
via `translateStopReason`, defaulted to `end_turn`; usage carrying the running
output-token count) and `message_stop`.  Returns (events, state, threw). -/
def finishStep (finishReason : Option String) (s : StreamState) :
    List StreamEvent × StreamState × Bool :=
  match finishReason with
  | none => ([], s, false)
  | some reason =>
    if reason = "" then ([], s, false)
    else
      let tcRes := finishTextClose s
      let s1 := tcRes.2
      let toolRes :=
        finishToolLoop s1.currentBlockIndex s1.toolCallStates.length s1.toolCallStates
      let s2 := { s1 with contentBlocks := s1.contentBlocks ++ toolRes.2.1 }
      if toolRes.2.2 then (tcRes.1 ++ toolRes.1, s2, true)
      else
        let hasToolCalls := decide (s2.toolCallStates.length > 0)
        let stopReason :=
          translateStopReason (some reason) (if hasToolCalls then some dummyToolCalls else none)
        (tcRes.1 ++ toolRes.1 ++
            [StreamEvent.message_delta (stopReason.getD .end_turn) none s2.outputTokens,
              StreamEvent.message_stop],
          s2, false)

/-- Result of one `translateStreamChunk` call: the returned event list, the
trace of indices assigned at the two `currentBlockIndex++` sites, whether a
`JSON.parse` exception was thrown (in which case the caller never sees
`events`), and the state after all mutations. -/
structure ChunkResult where
  events : List StreamEvent
  assigned : List Int
  threw : Bool
  state : StreamState

/-- `translateStreamChunk` from `response.ts`: text branch, tool-call branch,
finish branch, on the first choice; an empty `choices` list returns no events
and leaves the state untouched. -/
def translateStreamChunk (chunk : ChatCompletionsChunk) (state : StreamState) : ChunkResult :=
  match chunk.choices.head? with
  | none => { events := [], assigned := [], threw := false, state := state }
  | some choice =>
    let t := textStep choice.delta.content state
    let u := toolCallsStep choice.delta.tool_calls t.2.2
    let f := finishStep choice.finish_reason u.2.2
    { events := t.1 ++ u.1 ++ f.1, assigned := t.2.1 ++ u.2.1, threw := f.2.2, state := f.2.1 }

/-- `createMessageStartEvent`. -/
def createMessageStartEvent (state : StreamState) : StreamEvent :=
  .message_start state.messageId state.model state.inputTokens

/-- Result of feeding a chunk sequence through `translateStreamChunk`. -/
structure RunResult where
  events : List StreamEvent
  assigned : List Int
  state : StreamState

/-- Feed a chunk sequence in order through `translateStreamChunk`, starting
from `s`.  A throwing call ends the run: its mutated state is kept, its
events are discarded (the exception propagates to the caller). -/
def runChunks (s : StreamState) : List ChatCompletionsChunk → RunResult
  | [] => { events := [], assigned := [], state := s }
  | c :: cs =>
    let r := translateStreamChunk c s
    if r.threw then { events := [], assigned := r.assigned, state := r.state }
    else
      let rest := runChunks r.state cs
      { events := r.events ++ rest.events
        assigned := r.assigned ++ rest.assigned
        state := rest.state }

/-! ## Request translation (`src/translators/request.ts`)

The JSON-Schema sanitizer `cleanSchema` and the message mapper
`translateMessage`.  `cleanSchema` takes a JS `Record<string, unknown>`; when
the source recurses into a value that is a JS *array* (`typeof` is still
`"object"`), `Object.entries` views the array as an object with decimal
string keys `"0"`, `"1"`, …, which the embedding renders with `natKey`. -/

/-- Decimal string key of a JS array index (models `Object.entries` key
conversion). -/
def natKeyChars (n : Nat) : List Char :=
  if _h : n < 10 then [Char.ofNat (48 + n)]
  else natKeyChars (n / 10) ++ [Char.ofNat (48 + n % 10)]
termination_by n
decreasing_by exact Nat.div_lt_self (by omega) (by omega)

/-- Decimal string key of a JS array index. -/
def natKey (n : Nat) : String := String.mk (natKeyChars n)

/-- `UNSUPPORTED_SCHEMA_FIELDS` from `request.ts`: the fixed denylist of
JSON-Schema keywords dropped by the sanitizer. -/
def UNSUPPORTED_SCHEMA_FIELDS : List String :=
  ["format", "pattern", "minLength", "maxLength", "minimum", "maximum",
   "exclusiveMinimum", "exclusiveMaximum", "multipleOf", "minItems", "maxItems",
   "uniqueItems", "minProperties", "maxProperties", "const", "contentEncoding",
   "contentMediaType", "$schema", "$id", "$ref", "$defs", "definitions", "title",
   "examples", "default", "deprecated"]

/-- `result.type === "object"` (strict string equality). -/
def isTypeObject (r : List (String × Json)) : Bool :=
  match jsLookup r "type" with
  | some (.str s) => s = "object"
  | _ => false

/-- The post-processing at the end of `cleanSchema`: for `type: "object"`
results, force `additionalProperties: false` and, when none of
`properties`/`anyOf`/`oneOf`/`allOf` is truthy, inject an empty
`properties`. -/
def addObjectDefaults (r : List (String × Json)) : List (String × Json) :=
  if isTypeObject r then
    let r1 := jsInsert r "additionalProperties" (.bool false)
    if !truthyKey r1 "properties" && !truthyKey r1 "anyOf" && !truthyKey r1 "oneOf"
        && !truthyKey r1 "allOf" then
      jsInsert r1 "properties" (.obj [])
    else r1
  else r

mutual

/-- `cleanSchema` from `request.ts`, on the entry list of a JS record:
the key/value loop followed by the object-type post-processing. -/
def cleanSchema (schema : List (String × Json)) : List (String × Json) :=
  addObjectDefaults (cleanLoop [] schema)
termination_by 2 * sizeOf schema + 1
decreasing_by all_goals (simp_wf <;> omega)

/-- The `for (const [key, value] of Object.entries(schema))` loop of
`cleanSchema`: denylisted keys are skipped, every other key is assigned the
cleaned value. -/
def cleanLoop (result : List (String × Json)) :
    List (String × Json) → List (String × Json)
  | [] => result
  | (k, v) :: rest =>
    if k ∈ UNSUPPORTED_SCHEMA_FIELDS then cleanLoop result rest
    else cleanLoop (jsInsert result k (cleanEntryVal k v)) rest
termination_by l => 2 * sizeOf l
decreasing_by all_goals (simp_wf <;> omega)

/-- The per-entry branch chain of `cleanSchema`'s loop.  For an object value:
the `properties` branch maps each property through `cleanSchema`; under every
other key (`items`, `anyOf`/`oneOf`/`allOf` with a non-array object, and the
generic nested-object branch) the source calls `cleanSchema` on the value.
For an array value: under `properties` or `items` the array passes through
`cleanSchema`/the property map as an object with decimal keys; under
`anyOf`/`oneOf`/`allOf` its object-typed elements are cleaned in place; under
any other key the generic branch excludes arrays, so it is copied unchanged.
Scalars are copied unchanged. -/
def cleanEntryVal (k : String) (v : Json) : Json :=
  match v with
  | .obj fs => if k = "properties" then .obj (propsLoop [] fs) else .obj (cleanSchema fs)
  | .arr xs =>
    if k = "properties" then .obj (propsLoopArr [] 0 xs)
    else if k = "items" then .obj (cleanSchemaArr xs)
    else if k = "anyOf" ∨ k = "oneOf" ∨ k = "allOf" then .arr (cleanList xs)
    else v
  | _ => v
termination_by 2 * sizeOf v + 1
decreasing_by all_goals (simp_wf <;> omega)

/-- The `newProps` loop of the `properties` branch: object-typed property
values (arrays included) go through `cleanSchema`, the rest are copied. -/
def propsLoop (newProps : List (String × Json)) :
    List (String × Json) → List (String × Json)
  | [] => newProps
  | (pk, pv) :: rest => propsLoop (jsInsert newProps pk (objectClean pv)) rest
termination_by l => 2 * sizeOf l
decreasing_by all_goals (simp_wf <;> omega)

/-- The `newProps` loop when the `properties` value is itself a JS array:
`Object.entries` yields decimal keys. -/
def propsLoopArr (newProps : List (String × Json)) (i : Nat) :
    List Json → List (String × Json)
  | [] => newProps
  | x :: rest => propsLoopArr (jsInsert newProps (natKey i) (objectClean x)) (i + 1) rest
termination_by l => 2 * sizeOf l
decreasing_by all_goals (simp_wf <;> omega)

/-- `cleanSchema` applied to a JS array (possible through the `items` and
`properties` branches and through `objectClean`): the loop runs over the
array's `Object.entries` view, then the object-type post-processing runs on
the result. -/
def cleanSchemaArr (xs : List Json) : List (String × Json) :=
  addObjectDefaults (entriesLoopArr [] 0 xs)
termination_by 2 * sizeOf xs + 1
decreasing_by all_goals (simp_wf <;> omega)

/-- The `cleanSchema` key/value loop over an array's `Object.entries` view:
identical to `cleanLoop` with decimal keys `natKey i`. -/
def entriesLoopArr (result : List (String × Json)) (i : Nat) :
    List Json → List (String × Json)
  | [] => result
  | x :: rest =>
    if natKey i ∈ UNSUPPORTED_SCHEMA_FIELDS then entriesLoopArr result (i + 1) rest
    else entriesLoopArr (jsInsert result (natKey i) (cleanEntryVal (natKey i) x)) (i + 1) rest
termination_by l => 2 * sizeOf l
decreasing_by all_goals (simp_wf <;> omega)

/-- The element map of the `anyOf`/`oneOf`/`allOf` branches. -/
def cleanList : List Json → List Json
  | [] => []
  | x :: rest => objectClean x :: cleanList rest
termination_by l => 2 * sizeOf l
decreasing_by all_goals (simp_wf <;> omega)

/-- `typeof item === "object" && item !== null ? cleanSchema(item) : item`:
both objects and arrays take the `cleanSchema` path (an array comes back as
an object, as in JS). -/
def objectClean (v : Json) : Json :=
  match v with
  | .obj fs => .obj (cleanSchema fs)
  | .arr xs => .obj (cleanSchemaArr xs)
  | _ => v
termination_by 2 * sizeOf v + 1
decreasing_by all_goals (simp_wf <;> omega)

end

/-- One character of `JSON.stringify` string escaping (the common escapes). -/
def escapeJsonChar (c : Char) : List Char :=
  if c = '"' then ['\\', '"']
  else if c = '\\' then ['\\', '\\']
  else if c = '\n' then ['\\', 'n']
  else if c = '\t' then ['\\', 't']
  else if c = '\r' then ['\\', 'r']
  else [c]

/-- `JSON.stringify` string escaping. -/
def escapeJsonString (s : String) : String :=
  String.mk (s.data.foldr (fun c acc => escapeJsonChar c ++ acc) [])

mutual

/-- Model of `JSON.stringify` (compact form, integral numbers). -/
def jsonStringify : Json → String
  | .null => "null"
  | .bool true => "true"
  | .bool false => "false"
  | .num n => toString n
  | .str s => "\"" ++ escapeJsonString s ++ "\""
  | .arr xs => "[" ++ stringifyElems xs ++ "]"
  | .obj fs => "\x7b" ++ stringifyFields fs ++ "\x7d"
termination_by v => 2 * sizeOf v + 1
decreasing_by all_goals (simp_wf <;> omega)

/-- Comma-separated array elements. -/
def stringifyElems : List Json → String
  | [] => ""
  | [x] => jsonStringify x
  | x :: rest => jsonStringify x ++ "," ++ stringifyElems rest
termination_by l => 2 * sizeOf l
decreasing_by all_goals (simp_wf <;> omega)

/-- Comma-separated object members. -/
def stringifyFields : List (String × Json) → String
  | [] => ""
  | [(k, v)] => "\"" ++ escapeJsonString k ++ "\":" ++ jsonStringify v
  | (k, v) :: rest =>
    "\"" ++ escapeJsonString k ++ "\":" ++ jsonStringify v ++ "," ++ stringifyFields rest
termination_by l => 2 * sizeOf l
decreasing_by all_goals (simp_wf <;> omega)

end

/-- Cerebras `UserContentPart` (a text part or an image-url part). -/
inductive UserContentPart where
  | text (text : String)
  | image_url (url : String)
deriving Repr, DecidableEq

/-- Cerebras user-message content: a bare string or a typed-parts array. -/
inductive UserContent where
  | str (s : String)
  | parts (ps : List UserContentPart)
deriving Repr, DecidableEq

/-- Cerebras `ChatMessage`. -/
inductive ChatMessage where
  | system (content : String)
  | user (content : UserContent)
  | assistant (content : Option String) (tool_calls : Option (List ToolCall))
  | tool (content : String) (tool_call_id : String)
deriving Repr, DecidableEq

/-- Anthropic message role. -/
inductive ARole where
  | user
  | assistant
deriving Repr, DecidableEq

/-- Anthropic message content: a plain string or a block list. -/
inductive AMessageContent where
  | str (s : String)
  | blocks (bs : List ContentBlock)

/-- Anthropic `Message`. -/
structure AnthropicMessage where
  role : ARole
  content : AMessageContent

/-- The string form of a tool result's content: the string itself, or the
text blocks joined by newline. -/
def toolResultContentString : ToolResultContent → String
  | .str s => s
  | .blocks bs =>
    String.intercalate "\n"
      (bs.filterMap fun b => match b with | .text t => some t | _ => none)

/-- The image conversion inside `translateMessage`: inline base64 with a
media type becomes a data URL, a URL source passes through, anything else is
dropped. -/
def imagePartOf (source : ImageSource) : Option UserContentPart :=
  if source.type = "base64" ∧ truthyStr source.data ∧ truthyStr source.media_type then
    some (.image_url ("data:" ++ source.media_type.getD "" ++ ";base64," ++ source.data.getD ""))
  else if source.type = "url" ∧ truthyStr source.url then
    some (.image_url (source.url.getD ""))
  else none

/-- `translateMessage` from `request.ts`: a user message with block content is
split into one `tool`-role message per `tool_result` block (string content or
newline-joined text blocks, `"Error: "`-prefixed when `is_error` is truthy)
followed by at most one merged user message from the remaining blocks; an
assistant block message joins its text blocks and turns `tool_use` blocks
into provider tool calls. -/
def translateMessage (message : AnthropicMessage) : List ChatMessage :=
  match message.role with
  | .user =>
    match message.content with
    | .str s => [.user (.str s)]
    | .blocks bs =>
      let toolResults : List ChatMessage :=
        bs.filterMap fun b =>
          match b with
          | .tool_result tid c isErr =>
            let content := toolResultContentString c
            some (.tool (if isErr.getD false then "Error: " ++ content else content) tid)
          | _ => none
      let otherBlocks := bs.filter fun b =>
          match b with
          | .tool_result _ _ _ => false
          | _ => true
      let parts : List UserContentPart :=
        otherBlocks.filterMap fun b =>
          match b with
          | .text t => some (.text t)
          | .image source => imagePartOf source
          | _ => none
      let userMsgs : List ChatMessage :=
        match parts with
        | [UserContentPart.text t] => [.user (.str t)]
        | [] => []
        | ps => [.user (.parts ps)]
      toolResults ++ userMsgs
  | .assistant =>
    match message.content with
    | .str s => [.assistant (some s) none]
    | .blocks bs =>
      let textBlocks := bs.filterMap fun b => match b with | .text t => some t | _ => none
      let toolUseBlocks := bs.filterMap fun b =>
          match b with
          | .tool_use i n inp => some (ToolCall.mk i ⟨n, jsonStringify inp⟩)
          | _ => none
      let content : Option String :=
        if textBlocks.isEmpty then none else some (String.intercalate "\n" textBlocks)
      [.assistant content (if toolUseBlocks.isEmpty then none else some toolUseBlocks)]

/-! ## Predicates for the sanitizer idempotence proof -/

/-- An entry a `cleanSchema` pass leaves alone: its key is not denylisted and
its value is a fixed point of the per-entry cleaning. -/
def goodEntry (p : String × Json) : Prop :=
  p.1 ∉ UNSUPPORTED_SCHEMA_FIELDS ∧ cleanEntryVal p.1 p.2 = p.2

def goodEntries (r : List (String × Json)) : Prop :=
  (r.map Prod.fst).Nodup ∧ ∀ p ∈ r, goodEntry p

def goodProps (r : List (String × Json)) : Prop :=
  (r.map Prod.fst).Nodup ∧ ∀ p ∈ r, objectClean p.2 = p.2

def numericKeys (r : List (String × Json)) : Prop :=
  ∀ k ∈ r.map Prod.fst, ∃ m, k = natKey m

/-! ## Specification-side definitions

These definitions transcribe claim language (not source code) and are compared
against the embedded source functions. -/

/-- The stop-reason table as the specification states it: any tool call
present forces tool use; otherwise normal stop maps to end of turn, length to
max tokens, tool-calls to tool use, content-filter to end of turn, anything
else (including absent) to none. -/
def specStopReason (finishReason : Option String) (toolCalls : Option (List ToolCall)) :
    Option StopReason :=
  if toolCalls.getD [] ≠ [] then some .tool_use
  else
    match finishReason with
    | some "stop" => some .end_turn
    | some "length" => some .max_tokens
    | some "tool_calls" => some .tool_use
    | some "content_filter" => some .end_turn
    | _ => none

/-- The specification's description of the provider message produced from one
`tool_result` block: a tool-role message whose `tool_call_id` is the block's
`tool_use_id`, whose content is the block's string content or the
newline-join of its text blocks, prefixed with `"Error: "` exactly when the
error flag is set. -/
def specToolResultMessage (tool_use_id : String) (content : ToolResultContent)
    (is_error : Option Bool) : ChatMessage :=
  let c :=
    match content with
    | .str s => s
    | .blocks bs =>
      String.intercalate "\n"
        (bs.filterMap fun b => match b with | .text t => some t | _ => none)
  .tool (if is_error.getD false then "Error: " ++ c else c) tool_use_id

/-- `n` consecutive integers starting at `start`. -/
def consecFrom (start : Int) : Nat → List Int
  | 0 => []
  | n + 1 => start :: consecFrom (start + 1) n

/-! ## Theorems -/

/-- A provider chunk carrying only a text delta. -/
def textChunk (s : String) : ChatCompletionsChunk :=
  { choices := [{ delta := { content := some s, tool_calls := none }, finish_reason := none }] }

/-- A provider chunk carrying only tool-call deltas. -/
def toolChunk (tcs : List DeltaToolCall) : ChatCompletionsChunk :=
  { choices := [{ delta := { content := none, tool_calls := some tcs }, finish_reason := none }] }

/-- A provider chunk carrying only a finish signal. -/
def finishChunk (r : String) : ChatCompletionsChunk :=
  { choices := [{ delta := { content := none, tool_calls := none }, finish_reason := some r }] }

/-- C1.  Feeding the provider chunks [text "Hel"], [text "lo"], [finish stop]
in order to `translateStreamChunk` on a fresh stream state emits exactly:
`content_block_start` (index 0, text, empty initial text),
`content_block_delta` (index 0, text_delta "Hel"),
`content_block_delta` (index 0, text_delta "lo"),
`content_block_stop` (index 0), `message_delta` (stop_reason end_turn),
`message_stop` — each delta carrying exactly the incremental delta, never the
accumulated total. -/
theorem stream_text_event_sequence (model freshId : String) :
    (runChunks (createStreamState model freshId)
      [textChunk "Hel", textChunk "lo", finishChunk "stop"]).events =
    [.content_block_start 0 (.text ""),
     .content_block_delta 0 (.text_delta "Hel"),
     .content_block_delta 0 (.text_delta "lo"),
     .content_block_stop 0,
     .message_delta .end_turn none 0,
     .message_stop] := rfl

/-- `JSON.parse` of the two-character empty-object source text. -/
theorem parseJson_empty_obj : parseJson "\x7b\x7d" = some (.obj []) := rfl

/-- C2.  Feeding [tool call at position 0 with id "X", name "f", empty
arguments], [tool call at position 0 with arguments "\x7b\x7d"], [finish
tool_calls] in order on a fresh stream state emits exactly:
`content_block_start` (index 0, tool_use, id "X", name "f", empty input),
`content_block_delta` (index 0, input_json_delta of the argument fragment),
`content_block_stop` (index 0), `message_delta` (stop_reason tool_use),
`message_stop`; and the finalized content unit recorded in the state has
input equal to the parsed empty object. -/
theorem stream_tool_event_sequence (model freshId : String) :
    (runChunks (createStreamState model freshId)
      [toolChunk [⟨0, some "X", some ⟨some "f", some ""⟩⟩],
       toolChunk [⟨0, none, some ⟨none, some "\x7b\x7d"⟩⟩],
       finishChunk "tool_calls"]).events =
      [.content_block_start 0 (.tool_use "X" "f" (.obj [])),
       .content_block_delta 0 (.input_json_delta "\x7b\x7d"),
       .content_block_stop 0,
       .message_delta .tool_use none 0,
       .message_stop]
    ∧
    (runChunks (createStreamState model freshId)
      [toolChunk [⟨0, some "X", some ⟨some "f", some ""⟩⟩],
       toolChunk [⟨0, none, some ⟨none, some "\x7b\x7d"⟩⟩],
       finishChunk "tool_calls"]).state.contentBlocks =
      [.tool_use "X" "f" (.obj [])] := by
  constructor <;>
    simp [runChunks, translateStreamChunk, textStep, toolCallsStep, toolCallLoop,
      toolCallStep, closeTextIfNeeded, finishStep, finishTextClose, finishToolLoop,
      mapGet, mapSet, createStreamState, translateStopReason, dummyToolCalls,
      toolChunk, finishChunk, parseJson_empty_obj]

/-- C6.  A provider reply with an empty choice list fails non-streaming
translation with the empty-reply condition: `translateResponse` returns the
`emptyReply` error and no client reply (the function is pure, so nothing else
is modified). -/
theorem translateResponse_empty_choices (r : ChatCompletionsResponse) (m : String)
    (h : r.choices = []) :
    translateResponse r m = .error .emptyReply := by
  simp [translateResponse, h]

/-- Witness for C6 at a concrete reply with no choices. -/
theorem translateResponse_empty_choices_witness :
    translateResponse { id := "abc", choices := [], usage := { prompt_tokens := 3, completion_tokens := 0 } } "claude" =
      .error .emptyReply :=
  translateResponse_empty_choices _ _ rfl

/-- C10.  A provider chunk with an empty `choices` list makes
`translateStreamChunk` return no events (and no assignments, no throw) and
leave the state exactly as it was. -/
theorem translateStreamChunk_empty_choices (chunk : ChatCompletionsChunk) (s : StreamState)
    (h : chunk.choices = []) :
    translateStreamChunk chunk s = { events := [], assigned := [], threw := false, state := s } := by
  simp [translateStreamChunk, h]

/-- Witness for C10 at a concrete state and chunk. -/
theorem translateStreamChunk_empty_choices_witness :
    translateStreamChunk { choices := [] } (createStreamState "claude" "abc123") =
      { events := [], assigned := [], threw := false,
        state := createStreamState "claude" "abc123" } :=
  translateStreamChunk_empty_choices _ _ rfl

/-- C5.  A provider reply whose first choice has no non-empty text content and
no tool calls translates (non-streaming) to a client reply with exactly one
content unit: a text unit with empty text — never zero content units. -/
theorem translateResponse_zero_content (r : ChatCompletionsResponse) (m : String)
    (choice : Choice) (hc : r.choices.head? = some choice)
    (hcontent : choice.message.content = none ∨ choice.message.content = some "")
    (htc : choice.message.tool_calls = none ∨ choice.message.tool_calls = some []) :
    ∃ resp, translateResponse r m = .ok resp ∧ resp.content = [ContentBlock.text ""] := by
  rcases hcontent with h1 | h1 <;> rcases htc with h2 | h2 <;>
    simp [translateResponse, hc, h1, h2, translateToolCallBlocks]

/-- Witness for C5 at a concrete contentless reply. -/
theorem translateResponse_zero_content_witness :
    ∃ resp, translateResponse
        { id := "abc",
          choices := [{ message := { content := none, tool_calls := none },
                        finish_reason := some "stop" }],
          usage := { prompt_tokens := 3, completion_tokens := 0 } } "claude" = .ok resp ∧
      resp.content = [ContentBlock.text ""] :=
  translateResponse_zero_content _ "claude" _ rfl (Or.inl rfl) (Or.inl rfl)

theorem stopReason_eq_spec (fr : Option String) (tcs : Option (List ToolCall)) :
    translateStopReason fr tcs = specStopReason fr tcs := by
  rcases tcs with _ | (_ | ⟨tc, l⟩)
  · rcases fr with _ | r
    · rfl
    · by_cases h1 : r = "stop" <;> by_cases h2 : r = "length" <;>
        by_cases h3 : r = "tool_calls" <;> by_cases h4 : r = "content_filter" <;>
        simp_all [translateStopReason, specStopReason]
  · rcases fr with _ | r
    · rfl
    · by_cases h1 : r = "stop" <;> by_cases h2 : r = "length" <;>
        by_cases h3 : r = "tool_calls" <;> by_cases h4 : r = "content_filter" <;>
        simp_all [translateStopReason, specStopReason]
  · simp [translateStopReason, specStopReason]

theorem finishStep_message_delta (r : String) (hr : r ≠ "") (s : StreamState)
    (hth : (finishStep (some r) s).2.2 = false) :
    ∃ pre, (finishStep (some r) s).1 =
      pre ++ [StreamEvent.message_delta
        ((translateStopReason (some r)
            (if 0 < (finishStep (some r) s).2.1.toolCallStates.length then some dummyToolCalls
             else none)).getD .end_turn)
        none ((finishStep (some r) s).2.1.outputTokens),
        StreamEvent.message_stop] := by
  rcases h1 : finishToolLoop (finishTextClose s).2.currentBlockIndex
      (finishTextClose s).2.toolCallStates.length (finishTextClose s).2.toolCallStates with
    ⟨evT, blocks, thr⟩
  cases thr
  · refine ⟨(finishTextClose s).1 ++ evT, ?_⟩
    simp [finishStep, hr, h1]
  · exfalso
    simp [finishStep, hr, h1] at hth

/-- C4.  The stop-reason mapping satisfies the specification table for every
finish reason and tool-call list (tool calls present force tool_use; stop and
content_filter map to end_turn, length to max_tokens, tool_calls to tool_use,
anything else to none); and a non-throwing streaming finish emits a
`message_delta` whose stop reason is that same mapping — fed a dummy
tool-call list exactly when a tool-call unit is registered — with end_turn
substituted when the mapping yields none. -/
theorem stopReason_mapping :
    (∀ (fr : Option String) (tcs : Option (List ToolCall)),
        translateStopReason fr tcs = specStopReason fr tcs) ∧
    (∀ (chunk : ChatCompletionsChunk) (s : StreamState) (choice : ChunkChoice) (r : String),
      chunk.choices.head? = some choice → choice.finish_reason = some r → r ≠ "" →
      (translateStreamChunk chunk s).threw = false →
      ∃ pre, (translateStreamChunk chunk s).events =
        pre ++ [StreamEvent.message_delta
          ((specStopReason (some r)
              (if 0 < (translateStreamChunk chunk s).state.toolCallStates.length
               then some dummyToolCalls else none)).getD .end_turn)
          none ((translateStreamChunk chunk s).state.outputTokens),
          StreamEvent.message_stop]) := by
  refine ⟨stopReason_eq_spec, ?_⟩
  intro chunk s choice r hc hfr hr hth
  simp only [translateStreamChunk, hc, hfr] at hth ⊢
  obtain ⟨pre, hp⟩ := finishStep_message_delta r hr
    ((toolCallsStep choice.delta.tool_calls (textStep choice.delta.content s).2.2).2.2) hth
  rw [← stopReason_eq_spec]
  refine ⟨(textStep choice.delta.content s).1 ++
    (toolCallsStep choice.delta.tool_calls (textStep choice.delta.content s).2.2).1 ++ pre, ?_⟩
  rw [hp]
  simp

/-- Witness for C4's streaming part at a concrete finish chunk on a fresh
state. -/
theorem stopReason_mapping_witness :
    ∃ pre, (translateStreamChunk (finishChunk "stop") (createStreamState "claude" "xyz")).events =
      pre ++ [StreamEvent.message_delta
        ((specStopReason (some "stop")
            (if 0 < (translateStreamChunk (finishChunk "stop")
                (createStreamState "claude" "xyz")).state.toolCallStates.length
             then some dummyToolCalls else none)).getD .end_turn)
        none ((translateStreamChunk (finishChunk "stop")
                (createStreamState "claude" "xyz")).state.outputTokens),
        StreamEvent.message_stop] :=
  stopReason_mapping.2 (finishChunk "stop") (createStreamState "claude" "xyz") _ "stop" rfl rfl
    (by decide) rfl

theorem textStep_outputTokens (c : Option String) (s : StreamState) :
    (textStep c s).2.2.outputTokens = s.outputTokens := by
  rcases c with _ | c
  · rfl
  · by_cases hc : c = "" <;> simp [textStep, hc] <;> split <;> rfl

theorem textStep_no_md (c : Option String) (s : StreamState) (sr : StopReason)
    (ss : Option String) (n : Nat) :
    StreamEvent.message_delta sr ss n ∉ (textStep c s).1 := by
  rcases c with _ | c
  · simp [textStep]
  · by_cases hc : c = "" <;> simp [textStep, hc] <;> split <;> simp

theorem closeTextIfNeeded_outputTokens (s : StreamState) :
    (closeTextIfNeeded s).2.outputTokens = s.outputTokens := by
  simp [closeTextIfNeeded]; split <;> rfl

theorem closeTextIfNeeded_no_md (s : StreamState) (sr : StopReason) (ss : Option String) (n : Nat) :
    StreamEvent.message_delta sr ss n ∉ (closeTextIfNeeded s).1 := by
  simp [closeTextIfNeeded]; split <;> simp

theorem toolCallStep_outputTokens (tc : DeltaToolCall) (s : StreamState) :
    (toolCallStep tc s).2.2.outputTokens = s.outputTokens := by
  simp only [toolCallStep]
  repeat' split
  all_goals rfl

theorem toolCallStep_no_md (tc : DeltaToolCall) (s : StreamState) (sr : StopReason)
    (ss : Option String) (n : Nat) :
    StreamEvent.message_delta sr ss n ∉ (toolCallStep tc s).1 := by
  simp only [toolCallStep]
  repeat' split
  all_goals simp

theorem toolCallLoop_outputTokens (tcs : List DeltaToolCall) :
    ∀ s : StreamState, (toolCallLoop tcs s).2.2.outputTokens = s.outputTokens := by
  induction tcs with
  | nil => intro s; rfl
  | cons tc rest ih => intro s; simp only [toolCallLoop]; rw [ih, toolCallStep_outputTokens]

theorem toolCallLoop_no_md (tcs : List DeltaToolCall) :
    ∀ (s : StreamState) (sr : StopReason) (ss : Option String) (n : Nat),
      StreamEvent.message_delta sr ss n ∉ (toolCallLoop tcs s).1 := by
  induction tcs with
  | nil => intro s sr ss n; simp [toolCallLoop]
  | cons tc rest ih =>
    intro s sr ss n
    simp only [toolCallLoop, List.mem_append]
    push_neg
    exact ⟨toolCallStep_no_md tc s sr ss n, ih _ sr ss n⟩

theorem toolCallsStep_outputTokens (o : Option (List DeltaToolCall)) (s : StreamState) :
    (toolCallsStep o s).2.2.outputTokens = s.outputTokens := by
  rcases o with _ | tcs
  · rfl
  · simp only [toolCallsStep]
    rw [toolCallLoop_outputTokens, closeTextIfNeeded_outputTokens]

theorem toolCallsStep_no_md (o : Option (List DeltaToolCall)) (s : StreamState)
    (sr : StopReason) (ss : Option String) (n : Nat) :
    StreamEvent.message_delta sr ss n ∉ (toolCallsStep o s).1 := by
  rcases o with _ | tcs
  · simp [toolCallsStep]
  · simp only [toolCallsStep, List.mem_append]
    push_neg
    exact ⟨closeTextIfNeeded_no_md s sr ss n, toolCallLoop_no_md tcs _ sr ss n⟩

theorem finishTextClose_outputTokens (s : StreamState) :
    (finishTextClose s).2.outputTokens = s.outputTokens := by
  simp [finishTextClose]; split <;> rfl

theorem finishTextClose_no_md (s : StreamState) (sr : StopReason) (ss : Option String) (n : Nat) :
    StreamEvent.message_delta sr ss n ∉ (finishTextClose s).1 := by
  simp [finishTextClose]; split <;> simp

theorem finishToolLoop_no_md (cbi : Int) (size : Nat) (entries : List (Nat × ToolCallState)) :
    ∀ (sr : StopReason) (ss : Option String) (n : Nat),
      StreamEvent.message_delta sr ss n ∉ (finishToolLoop cbi size entries).1 := by
  induction entries with
  | nil => intro sr ss n; simp [finishToolLoop]
  | cons e rest ih =>
    intro sr ss n
    obtain ⟨idx, ts⟩ := e
    simp only [finishToolLoop]
    split
    · split
      · simp only [List.mem_cons]
        push_neg
        exact ⟨by simp, by
          have := ih sr ss n
          intro hmem
          exact this (by
            rcases h2 : finishToolLoop cbi size rest with ⟨a, b, c⟩
            simp_all)⟩
      · simp
    · exact ih sr ss n

theorem finishStep_outputTokens (fr : Option String) (s : StreamState) :
    (finishStep fr s).2.1.outputTokens = s.outputTokens := by
  rcases fr with _ | r
  · rfl
  · by_cases hr : r = ""
    · simp [finishStep, hr]
    · simp only [finishStep]
      rw [if_neg hr]
      split
      · exact finishTextClose_outputTokens s
      · exact finishTextClose_outputTokens s

theorem finishStep_md_value (fr : Option String) (s : StreamState) (sr : StopReason)
    (ss : Option String) (n : Nat)
    (hmem : StreamEvent.message_delta sr ss n ∈ (finishStep fr s).1) :
    n = s.outputTokens := by
  rcases fr with _ | r
  · simp [finishStep] at hmem
  · by_cases hr : r = ""
    · simp [finishStep, hr] at hmem
    · simp only [finishStep] at hmem
      rw [if_neg hr] at hmem
      split at hmem
      · rcases List.mem_append.mp hmem with h | h
        · exact absurd h (finishTextClose_no_md s sr ss n)
        · exact absurd h (finishToolLoop_no_md _ _ _ sr ss n)
      · rcases List.mem_append.mp hmem with h | h
        · rcases List.mem_append.mp h with h2 | h2
          · exact absurd h2 (finishTextClose_no_md s sr ss n)
          · exact absurd h2 (finishToolLoop_no_md _ _ _ sr ss n)
        · rcases List.mem_cons.mp h with h3 | h3
          · cases h3
            exact finishTextClose_outputTokens s
          · rcases List.mem_cons.mp h3 with h4 | h4
            · simp at h4
            · simp at h4

theorem translateStreamChunk_outputTokens (chunk : ChatCompletionsChunk) (s : StreamState) :
    (translateStreamChunk chunk s).state.outputTokens = s.outputTokens := by
  rcases hc : chunk.choices.head? with _ | choice
  · simp [translateStreamChunk, hc]
  · simp only [translateStreamChunk, hc]
    rw [finishStep_outputTokens, toolCallsStep_outputTokens, textStep_outputTokens]

theorem translateStreamChunk_md_value (chunk : ChatCompletionsChunk) (s : StreamState)
    (sr : StopReason) (ss : Option String) (n : Nat)
    (hmem : StreamEvent.message_delta sr ss n ∈ (translateStreamChunk chunk s).events) :
    n = s.outputTokens := by
  rcases hc : chunk.choices.head? with _ | choice
  · simp [translateStreamChunk, hc] at hmem
  · simp only [translateStreamChunk, hc] at hmem
    rcases List.mem_append.mp hmem with h | h
    · rcases List.mem_append.mp h with h2 | h2
      · exact absurd h2 (textStep_no_md _ _ sr ss n)
      · exact absurd h2 (toolCallsStep_no_md _ _ sr ss n)
    · have := finishStep_md_value choice.finish_reason _ sr ss n h
      rw [this, toolCallsStep_outputTokens, textStep_outputTokens]

theorem runChunks_outputTokens (cs : List ChatCompletionsChunk) :
    ∀ s : StreamState, (runChunks s cs).state.outputTokens = s.outputTokens := by
  induction cs with
  | nil => intro s; rfl
  | cons c rest ih =>
    intro s
    simp only [runChunks]
    split
    · exact translateStreamChunk_outputTokens c s
    · rw [ih, translateStreamChunk_outputTokens]

theorem runChunks_md_value (cs : List ChatCompletionsChunk) :
    ∀ (s : StreamState) (sr : StopReason) (ss : Option String) (n : Nat),
      StreamEvent.message_delta sr ss n ∈ (runChunks s cs).events → n = s.outputTokens := by
  induction cs with
  | nil => intro s sr ss n h; simp [runChunks] at h
  | cons c rest ih =>
    intro s sr ss n h
    simp only [runChunks] at h
    split at h
    · simp at h
    · rcases List.mem_append.mp h with h2 | h2
      · exact translateStreamChunk_md_value c s sr ss n h2
      · rw [ih _ sr ss n h2, translateStreamChunk_outputTokens]

/-- C9.  For every chunk sequence processed from a fresh stream state, any
`message_delta` event the translator emits reports `usage.output_tokens = 0`:
the token counters are zero at stream creation and no chunk ever updates
them. -/
theorem stream_output_tokens_zero (model freshId : String) (cs : List ChatCompletionsChunk)
    (sr : StopReason) (ss : Option String) (n : Nat)
    (hmem : StreamEvent.message_delta sr ss n ∈
      (runChunks (createStreamState model freshId) cs).events) :
    n = 0 :=
  runChunks_md_value cs (createStreamState model freshId) sr ss n hmem

/-- Witness for C9 at a single finish chunk. -/
theorem stream_output_tokens_zero_witness :
    StreamEvent.message_delta .end_turn none 0 ∈
      (runChunks (createStreamState "claude" "xyz") [finishChunk "stop"]).events ∧ (0 : Nat) = 0 :=
  ⟨by simp [runChunks, translateStreamChunk, finishChunk, textStep, toolCallsStep,
      finishStep, finishTextClose, finishToolLoop, createStreamState, translateStopReason],
   stream_output_tokens_zero "claude" "xyz" [finishChunk "stop"] .end_turn none 0
     (by simp [runChunks, translateStreamChunk, finishChunk, textStep, toolCallsStep,
        finishStep, finishTextClose, finishToolLoop, createStreamState, translateStopReason])⟩

theorem consecFrom_append (m k : Nat) : ∀ a : Int,
    consecFrom a (m + k) = consecFrom a m ++ consecFrom (a + m) k := by
  induction m with
  | zero => intro a; simp [consecFrom]
  | succ m ih =>
    intro a
    have : m + 1 + k = (m + k) + 1 := by omega
    rw [this]
    simp only [consecFrom, ih (a + 1), List.cons_append]
    have : a + 1 + (m : Int) = a + ((m : Nat) + 1 : Nat) := by push_cast; ring
    rw [this]

theorem textStep_assigned (c : Option String) (s : StreamState) :
    ∃ n, (textStep c s).2.1 = consecFrom (s.currentBlockIndex + 1) n ∧
      (textStep c s).2.2.currentBlockIndex = s.currentBlockIndex + n := by
  rcases c with _ | c
  · exact ⟨0, rfl, by simp [textStep]⟩
  · by_cases hc : c = ""
    · exact ⟨0, by simp [textStep, hc, consecFrom], by simp [textStep, hc]⟩
    · by_cases hs : s.textBlockStarted
      · exact ⟨0, by simp [textStep, hc, hs, consecFrom], by simp [textStep, hc, hs]⟩
      · refine ⟨1, by simp [textStep, hc, hs, consecFrom], by simp [textStep, hc, hs]⟩

theorem toolCallStep_assigned (tc : DeltaToolCall) (s : StreamState) :
    ∃ n, (toolCallStep tc s).2.1 = consecFrom (s.currentBlockIndex + 1) n ∧
      (toolCallStep tc s).2.2.currentBlockIndex = s.currentBlockIndex + n := by
  simp only [toolCallStep]
  repeat' split
  all_goals
    first
      | exact ⟨0, rfl, by simp⟩
      | exact ⟨1, rfl, by simp [consecFrom]⟩
      | refine ⟨1, by simp [consecFrom], by simp⟩

theorem toolCallLoop_assigned (tcs : List DeltaToolCall) :
    ∀ s : StreamState,
      ∃ n, (toolCallLoop tcs s).2.1 = consecFrom (s.currentBlockIndex + 1) n ∧
        (toolCallLoop tcs s).2.2.currentBlockIndex = s.currentBlockIndex + n := by
  induction tcs with
  | nil => intro s; exact ⟨0, rfl, by simp [toolCallLoop]⟩
  | cons tc rest ih =>
    intro s
    obtain ⟨n1, h1, h2⟩ := toolCallStep_assigned tc s
    obtain ⟨n2, h3, h4⟩ := ih (toolCallStep tc s).2.2
    refine ⟨n1 + n2, ?_, ?_⟩
    · simp only [toolCallLoop]
      rw [h1, h3, h2, consecFrom_append]
      congr 2
      push_cast
      ring
    · simp only [toolCallLoop]
      rw [h4, h2]
      push_cast
      ring

theorem closeTextIfNeeded_cbi (s : StreamState) :
    (closeTextIfNeeded s).2.currentBlockIndex = s.currentBlockIndex := by
  simp [closeTextIfNeeded]; split <;> rfl

theorem toolCallsStep_assigned (o : Option (List DeltaToolCall)) (s : StreamState) :
    ∃ n, (toolCallsStep o s).2.1 = consecFrom (s.currentBlockIndex + 1) n ∧
      (toolCallsStep o s).2.2.currentBlockIndex = s.currentBlockIndex + n := by
  rcases o with _ | tcs
  · exact ⟨0, rfl, by simp [toolCallsStep]⟩
  · obtain ⟨n, h1, h2⟩ := toolCallLoop_assigned tcs (closeTextIfNeeded s).2
    refine ⟨n, ?_, ?_⟩
    · simp only [toolCallsStep]
      rw [h1, closeTextIfNeeded_cbi]
    · simp only [toolCallsStep]
      rw [h2, closeTextIfNeeded_cbi]

theorem finishStep_cbi (fr : Option String) (s : StreamState) :
    (finishStep fr s).2.1.currentBlockIndex = s.currentBlockIndex := by
  rcases fr with _ | r
  · rfl
  · by_cases hr : r = ""
    · simp [finishStep, hr]
    · simp only [finishStep]
      rw [if_neg hr]
      split <;> simp [finishTextClose] <;> split <;> rfl

theorem consecFrom_length (n : Nat) : ∀ a : Int, (consecFrom a n).length = n := by
  induction n with
  | zero => intro a; rfl
  | succ n ih => intro a; simp [consecFrom, ih]

theorem translateStreamChunk_assigned (chunk : ChatCompletionsChunk) (s : StreamState) :
    ∃ n, (translateStreamChunk chunk s).assigned = consecFrom (s.currentBlockIndex + 1) n ∧
      (translateStreamChunk chunk s).state.currentBlockIndex = s.currentBlockIndex + n := by
  rcases hc : chunk.choices.head? with _ | choice
  · exact ⟨0, by simp [translateStreamChunk, hc, consecFrom],
      by simp [translateStreamChunk, hc]⟩
  · obtain ⟨n1, h1, h2⟩ := textStep_assigned choice.delta.content s
    obtain ⟨n2, h3, h4⟩ :=
      toolCallsStep_assigned choice.delta.tool_calls (textStep choice.delta.content s).2.2
    refine ⟨n1 + n2, ?_, ?_⟩
    · simp only [translateStreamChunk, hc]
      rw [h1, h3, h2, consecFrom_append]
      congr 2
      push_cast
      ring
    · simp only [translateStreamChunk, hc]
      rw [finishStep_cbi, h4, h2]
      push_cast
      ring

theorem runChunks_assigned (cs : List ChatCompletionsChunk) :
    ∀ s : StreamState,
      ∃ n, (runChunks s cs).assigned = consecFrom (s.currentBlockIndex + 1) n ∧
        (runChunks s cs).state.currentBlockIndex = s.currentBlockIndex + n := by
  induction cs with
  | nil => intro s; exact ⟨0, rfl, by simp [runChunks]⟩
  | cons c rest ih =>
    intro s
    obtain ⟨n1, h1, h2⟩ := translateStreamChunk_assigned c s
    cases ht : (translateStreamChunk c s).threw
    · obtain ⟨n2, h3, h4⟩ := ih (translateStreamChunk c s).state
      refine ⟨n1 + n2, ?_, ?_⟩
      · simp only [runChunks, ht, Bool.false_eq_true, if_false]
        rw [h1, h3, h2, consecFrom_append]
        congr 2
        push_cast
        ring
      · simp only [runChunks, ht, Bool.false_eq_true, if_false]
        rw [h4, h2]
        push_cast
        ring
    · refine ⟨n1, ?_, ?_⟩
      · simp only [runChunks, ht, if_true]
        exact h1
      · simp only [runChunks, ht, if_true]
        exact h2

/-- C3.  Across any chunk sequence processed in order from a fresh stream
state, the content-unit indices assigned by the translator (at a text-block
open and at a tool-call registration) are exactly the consecutive integers
0, 1, 2, … — strictly increasing, contiguous from 0, never reused or
skipped, however text and tool-call deltas interleave. -/
theorem stream_indices_contiguous (model freshId : String) (cs : List ChatCompletionsChunk) :
    (runChunks (createStreamState model freshId) cs).assigned =
      consecFrom 0 ((runChunks (createStreamState model freshId) cs).assigned.length) := by
  obtain ⟨n, h1, _⟩ := runChunks_assigned cs (createStreamState model freshId)
  have h0 : (createStreamState model freshId).currentBlockIndex + 1 = 0 := by
    simp [createStreamState]
  rw [h0] at h1
  rw [h1, consecFrom_length]

/-- C8.  For a user message with block content, the request mapper emits one
tool-role provider message per `tool_result` block — `tool_call_id` equal to
the block's `tool_use_id`, content equal to the block's string content or the
newline-join of its text blocks, `"Error: "`-prefixed exactly when the error
flag is set — followed only by non-tool-role messages. -/
theorem translateMessage_tool_results (bs : List ContentBlock) :
    ∃ rest, translateMessage ⟨.user, .blocks bs⟩ =
      (bs.filterMap fun b =>
        match b with
        | ContentBlock.tool_result tid c isErr => some (specToolResultMessage tid c isErr)
        | _ => none) ++ rest ∧
      ∀ m ∈ rest, ∀ (c tid : String), m ≠ .tool c tid := by
  have hTR : (bs.filterMap fun b =>
      match b with
      | ContentBlock.tool_result tid c isErr =>
        some (ChatMessage.tool
          (if isErr.getD false then "Error: " ++ toolResultContentString c
           else toolResultContentString c) tid)
      | _ => none) =
      (bs.filterMap fun b =>
        match b with
        | ContentBlock.tool_result tid c isErr => some (specToolResultMessage tid c isErr)
        | _ => none) := by
    induction bs with
    | nil => rfl
    | cons b rest ih =>
      cases b <;> simp [List.filterMap_cons, specToolResultMessage, toolResultContentString, ih]
  simp only [translateMessage]
  rw [← hTR]
  refine ⟨_, rfl, ?_⟩
  intro m hm c tid
  split at hm <;> simp_all

theorem jsInsert_of_not_mem {r : List (String × Json)} {k : String} (v : Json)
    (h : k ∉ r.map Prod.fst) : jsInsert r k v = r ++ [(k, v)] := by
  induction r with
  | nil => rfl
  | cons p rest ih =>
    obtain ⟨k', v'⟩ := p
    simp only [List.map_cons, List.mem_cons] at h
    push_neg at h
    simp only [jsInsert, List.cons_append]
    rw [if_neg (fun he => h.1 he.symm), ih h.2]

theorem jsLookup_jsInsert_self (r : List (String × Json)) (k : String) (v : Json) :
    jsLookup (jsInsert r k v) k = some v := by
  induction r with
  | nil => simp [jsInsert, jsLookup]
  | cons p rest ih =>
    obtain ⟨k', v'⟩ := p
    by_cases h : k' = k <;> simp [jsInsert, jsLookup, h, ih]

theorem jsLookup_jsInsert_ne (r : List (String × Json)) {k k' : String} (v : Json)
    (h : k ≠ k') : jsLookup (jsInsert r k v) k' = jsLookup r k' := by
  induction r with
  | nil => simp [jsInsert, jsLookup, h]
  | cons p rest ih =>
    obtain ⟨k0, v0⟩ := p
    by_cases h0 : k0 = k <;> simp [jsInsert, jsLookup, h0, ih, h] <;>
      simp [h0.symm ▸ h]

theorem jsInsert_lookup_self {r : List (String × Json)} {k : String} {v : Json}
    (h : jsLookup r k = some v) : jsInsert r k v = r := by
  induction r with
  | nil => simp [jsLookup] at h
  | cons p rest ih =>
    obtain ⟨k0, v0⟩ := p
    by_cases h0 : k0 = k
    · simp [jsLookup, h0] at h
      simp [jsInsert, h0, h]
    · simp [jsLookup, h0] at h
      simp [jsInsert, h0, ih h]

theorem keys_jsInsert (r : List (String × Json)) (k : String) (v : Json) :
    (jsInsert r k v).map Prod.fst =
      if k ∈ r.map Prod.fst then r.map Prod.fst else r.map Prod.fst ++ [k] := by
  induction r with
  | nil => simp [jsInsert]
  | cons p rest ih =>
    obtain ⟨k0, v0⟩ := p
    by_cases h0 : k0 = k
    · simp [jsInsert, h0]
    · have hne : ¬ k = k0 := fun he => h0 he.symm
      simp only [jsInsert, if_neg h0, List.map_cons, ih]
      by_cases hm : k ∈ rest.map Prod.fst
      · simp [hm, hne]
      · simp [hm, hne]

theorem keys_nodup_jsInsert {r : List (String × Json)} (k : String) (v : Json)
    (h : (r.map Prod.fst).Nodup) : ((jsInsert r k v).map Prod.fst).Nodup := by
  rw [keys_jsInsert]
  by_cases hm : k ∈ r.map Prod.fst
  · simpa [hm]
  · simp [hm, List.nodup_append, h]

theorem mem_jsInsert {p : String × Json} {r : List (String × Json)} {k : String} {v : Json}
    (h : p ∈ jsInsert r k v) : p ∈ r ∨ (p.1 = k ∧ p.2 = v) := by
  induction r with
  | nil => simp [jsInsert] at h; simp [h]
  | cons q rest ih =>
    obtain ⟨k0, v0⟩ := q
    by_cases h0 : k0 = k
    · simp only [jsInsert, if_pos h0] at h
      rcases List.mem_cons.mp h with h1 | h1
      · right; rw [h1]; exact ⟨h0, rfl⟩
      · left; exact List.mem_cons_of_mem _ h1
    · simp only [jsInsert, if_neg h0] at h
      rcases List.mem_cons.mp h with h1 | h1
      · left; rw [h1]; exact List.mem_cons_self _ _
      · rcases ih h1 with h2 | h2
        · left; exact List.mem_cons_of_mem _ h2
        · right; exact h2

theorem jsLookup_eq_none {r : List (String × Json)} {k : String}
    (h : k ∉ r.map Prod.fst) : jsLookup r k = none := by
  induction r with
  | nil => rfl
  | cons p rest ih =>
    obtain ⟨k0, v0⟩ := p
    simp only [List.map_cons, List.mem_cons] at h
    push_neg at h
    have hne : ¬ k0 = k := fun he => h.1 he.symm
    simp [jsLookup, hne, ih h.2]

theorem digitChar_ok (d : Nat) (hd : d < 10) :
    (48 ≤ (Char.ofNat (48 + d)).toNat && (Char.ofNat (48 + d)).toNat ≤ 57) = true := by
  interval_cases d <;> decide

theorem natKeyChars_digits (n : Nat) :
    (natKeyChars n).all (fun c => 48 ≤ c.toNat && c.toNat ≤ 57) = true := by
  induction n using Nat.strong_induction_on with
  | _ n ih =>
    rw [natKeyChars]
    split
    · rename_i h
      simp only [List.all_cons, List.all_nil, Bool.and_true]
      exact digitChar_ok n h
    · rename_i h
      simp only [List.all_append, List.all_cons, List.all_nil, Bool.and_true]
      rw [ih (n / 10) (Nat.div_lt_self (by omega) (by omega))]
      rw [digitChar_ok (n % 10) (Nat.mod_lt _ (by omega))]
      rfl

theorem natKey_ne_of_not_digits {w : String}
    (hw : w.data.all (fun c => 48 ≤ c.toNat && c.toNat ≤ 57) = false) (n : Nat) :
    natKey n ≠ w := by
  intro h
  have h2 : natKeyChars n = w.data := by
    have := congrArg String.data h
    simpa [natKey] using this
  rw [← h2, natKeyChars_digits n] at hw
  simp at hw

theorem natKey_not_mem_unsupported (n : Nat) : natKey n ∉ UNSUPPORTED_SCHEMA_FIELDS := by
  intro h
  have hall : ∀ w ∈ UNSUPPORTED_SCHEMA_FIELDS,
      w.data.all (fun c => 48 ≤ c.toNat && c.toNat ≤ 57) = false := by decide
  exact natKey_ne_of_not_digits (hall _ h) n rfl

theorem natKey_ne_type (n : Nat) : natKey n ≠ "type" :=
  natKey_ne_of_not_digits (by decide) n

theorem natKey_ne_properties (n : Nat) : natKey n ≠ "properties" :=
  natKey_ne_of_not_digits (by decide) n

theorem cleanLoop_of_good (r : List (String × Json)) :
    ∀ acc : List (String × Json), goodEntries r →
      (∀ k ∈ r.map Prod.fst, k ∉ acc.map Prod.fst) →
      cleanLoop acc r = acc ++ r := by
  induction r with
  | nil => intro acc _ _; simp [cleanLoop]
  | cons p rest ih =>
    intro acc hg hd
    obtain ⟨k, v⟩ := p
    have hk : k ∉ UNSUPPORTED_SCHEMA_FIELDS := (hg.2 (k, v) (List.mem_cons_self _ _)).1
    have hfix : cleanEntryVal k v = v := (hg.2 (k, v) (List.mem_cons_self _ _)).2
    simp only [cleanLoop, if_neg hk]
    rw [hfix, jsInsert_of_not_mem v (hd k (by simp))]
    have hgrest : goodEntries rest :=
      ⟨(List.nodup_cons.mp (by simpa using hg.1)).2,
       fun p hp => hg.2 p (List.mem_cons_of_mem _ hp)⟩
    have hknotin : k ∉ rest.map Prod.fst := (List.nodup_cons.mp (by simpa using hg.1)).1
    rw [ih (acc ++ [(k, v)]) hgrest ?_]
    · simp
    · intro k' hk'
      simp only [List.map_append, List.mem_append, List.map_cons] at *
      push_neg
      refine ⟨hd k' (by simp [hk']), ?_⟩
      simp only [List.map_nil, List.mem_singleton, List.map_cons, List.mem_cons]
      intro he
      rcases he with he | he
      · exact hknotin (he ▸ hk')
      · exact absurd he (List.not_mem_nil _)

theorem propsLoop_of_good (r : List (String × Json)) :
    ∀ acc : List (String × Json), goodProps r →
      (∀ k ∈ r.map Prod.fst, k ∉ acc.map Prod.fst) →
      propsLoop acc r = acc ++ r := by
  induction r with
  | nil => intro acc _ _; simp [propsLoop]
  | cons p rest ih =>
    intro acc hg hd
    obtain ⟨k, v⟩ := p
    have hfix : objectClean v = v := hg.2 (k, v) (List.mem_cons_self _ _)
    simp only [propsLoop]
    rw [hfix, jsInsert_of_not_mem v (hd k (by simp))]
    have hgrest : goodProps rest :=
      ⟨(List.nodup_cons.mp (by simpa using hg.1)).2,
       fun p hp => hg.2 p (List.mem_cons_of_mem _ hp)⟩
    have hknotin : k ∉ rest.map Prod.fst := (List.nodup_cons.mp (by simpa using hg.1)).1
    rw [ih (acc ++ [(k, v)]) hgrest ?_]
    · simp
    · intro k' hk'
      simp only [List.map_append, List.mem_append] at *
      push_neg
      refine ⟨hd k' (by simp [hk']), ?_⟩
      simp only [List.map_cons, List.map_nil, List.mem_singleton]
      intro he
      exact hknotin (he ▸ hk')

theorem goodEntries_jsInsert {r : List (String × Json)} {k : String} {v : Json}
    (hr : goodEntries r) (hkv : goodEntry (k, v)) : goodEntries (jsInsert r k v) := by
  refine ⟨keys_nodup_jsInsert k v hr.1, ?_⟩
  intro p hp
  rcases mem_jsInsert hp with h | ⟨h1, h2⟩
  · exact hr.2 p h
  · exact ⟨by rw [h1]; exact hkv.1, by rw [h1, h2]; exact hkv.2⟩

theorem goodProps_jsInsert {r : List (String × Json)} {k : String} {v : Json}
    (hr : goodProps r) (hv : objectClean v = v) : goodProps (jsInsert r k v) := by
  refine ⟨keys_nodup_jsInsert k v hr.1, ?_⟩
  intro p hp
  rcases mem_jsInsert hp with h | ⟨_, h2⟩
  · exact hr.2 p h
  · rw [h2]; exact hv

theorem truthyKey_jsInsert_ne (r : List (String × Json)) {k k' : String} (v : Json)
    (h : k ≠ k') : truthyKey (jsInsert r k v) k' = truthyKey r k' := by
  simp [truthyKey, jsLookup_jsInsert_ne r v h]

theorem isTypeObject_jsInsert_ne (r : List (String × Json)) {k : String} (v : Json)
    (h : k ≠ "type") : isTypeObject (jsInsert r k v) = isTypeObject r := by
  simp [isTypeObject, jsLookup_jsInsert_ne r v h]

theorem goodEntries_addObjectDefaults {r : List (String × Json)}
    (h : goodEntries r) : goodEntries (addObjectDefaults r) := by
  simp only [addObjectDefaults]
  split
  · split
    · refine goodEntries_jsInsert (goodEntries_jsInsert h ?_) ?_
      · exact ⟨by decide, by simp [cleanEntryVal]⟩
      · exact ⟨by decide, by simp [cleanEntryVal, propsLoop]⟩
    · exact goodEntries_jsInsert h ⟨by decide, by simp [cleanEntryVal]⟩
  · exact h

theorem addObjectDefaults_idem (r : List (String × Json)) :
    addObjectDefaults (addObjectDefaults r) = addObjectDefaults r := by
  by_cases h : isTypeObject r = true
  · have hT1 : isTypeObject (jsInsert r "additionalProperties" (Json.bool false)) = true := by
      rw [isTypeObject_jsInsert_ne r _ (by decide)]
      exact h
    by_cases hc : (!truthyKey (jsInsert r "additionalProperties" (Json.bool false)) "properties"
        && !truthyKey (jsInsert r "additionalProperties" (Json.bool false)) "anyOf"
        && !truthyKey (jsInsert r "additionalProperties" (Json.bool false)) "oneOf"
        && !truthyKey (jsInsert r "additionalProperties" (Json.bool false)) "allOf") = true
    · have hout : addObjectDefaults r =
          jsInsert (jsInsert r "additionalProperties" (Json.bool false)) "properties"
            (Json.obj []) := by
        simp only [addObjectDefaults, h, if_true, hc]
      rw [hout]
      have hT2 : isTypeObject (jsInsert (jsInsert r "additionalProperties" (Json.bool false))
          "properties" (Json.obj [])) = true := by
        rw [isTypeObject_jsInsert_ne _ _ (by decide)]
        exact hT1
      have hAP : jsLookup (jsInsert (jsInsert r "additionalProperties" (Json.bool false))
          "properties" (Json.obj [])) "additionalProperties" = some (Json.bool false) := by
        rw [jsLookup_jsInsert_ne _ _ (by decide)]
        exact jsLookup_jsInsert_self r _ _
      simp only [addObjectDefaults, hT2, if_true, jsInsert_lookup_self hAP]
      have hprops : truthyKey (jsInsert (jsInsert r "additionalProperties" (Json.bool false))
          "properties" (Json.obj [])) "properties" = true := by
        simp [truthyKey, jsLookup_jsInsert_self, truthy]
      rw [hprops]
      simp
    · have hout : addObjectDefaults r = jsInsert r "additionalProperties" (Json.bool false) := by
        simp only [addObjectDefaults, h, if_true]
        rw [if_neg hc]
      rw [hout]
      simp only [addObjectDefaults, hT1, if_true,
        jsInsert_lookup_self (jsLookup_jsInsert_self r "additionalProperties" (Json.bool false))]
      rw [if_neg hc]
  · simp only [addObjectDefaults, h]
    simp [h]

theorem goodEntries_nil : goodEntries [] := ⟨List.nodup_nil, by simp⟩

theorem goodProps_nil : goodProps [] := ⟨List.nodup_nil, by simp⟩

theorem cleanLoop_id {r : List (String × Json)} (h : goodEntries r) : cleanLoop [] r = r := by
  have := cleanLoop_of_good r [] h (by simp)
  simpa using this

theorem propsLoop_id {r : List (String × Json)} (h : goodProps r) : propsLoop [] r = r := by
  have := propsLoop_of_good r [] h (by simp)
  simpa using this

theorem numericKeys_jsInsert {r : List (String × Json)} {k : String} (v : Json)
    (hr : numericKeys r) (hk : ∃ m, k = natKey m) : numericKeys (jsInsert r k v) := by
  intro k' hk'
  rw [keys_jsInsert] at hk'
  by_cases hm : k ∈ r.map Prod.fst
  · rw [if_pos hm] at hk'
    exact hr k' hk'
  · rw [if_neg hm] at hk'
    rcases List.mem_append.mp hk' with h | h
    · exact hr k' h
    · simp at h
      exact h ▸ hk

theorem cleanFacts : ∀ n : Nat,
    (∀ (k : String) (v : Json), sizeOf v ≤ n →
        cleanEntryVal k (cleanEntryVal k v) = cleanEntryVal k v)
    ∧ (∀ v : Json, sizeOf v ≤ n → objectClean (objectClean v) = objectClean v)
    ∧ (∀ fs : List (String × Json), sizeOf fs ≤ n → ∀ acc, goodEntries acc →
        goodEntries (cleanLoop acc fs))
    ∧ (∀ fs : List (String × Json), sizeOf fs ≤ n → ∀ acc, goodProps acc →
        goodProps (propsLoop acc fs))
    ∧ (∀ xs : List Json, sizeOf xs ≤ n → ∀ acc i, goodProps acc →
        goodProps (propsLoopArr acc i xs))
    ∧ (∀ xs : List Json, sizeOf xs ≤ n → ∀ acc i, goodEntries acc → numericKeys acc →
        goodEntries (entriesLoopArr acc i xs) ∧ numericKeys (entriesLoopArr acc i xs))
    ∧ (∀ xs : List Json, sizeOf xs ≤ n → cleanList (cleanList xs) = cleanList xs)
    ∧ (∀ fs : List (String × Json), sizeOf fs ≤ n →
        cleanSchema (cleanSchema fs) = cleanSchema fs)
    ∧ (∀ xs : List Json, sizeOf xs ≤ n → cleanSchema (cleanSchemaArr xs) = cleanSchemaArr xs) := by
  intro n
  induction n using Nat.strong_induction_on with
  | _ n ih =>
  have ihP2 : ∀ (k : String) (v : Json), sizeOf v < n →
      cleanEntryVal k (cleanEntryVal k v) = cleanEntryVal k v :=
    fun k v hm => (ih _ hm).1 k v (le_refl _)
  have ihOC : ∀ v : Json, sizeOf v < n → objectClean (objectClean v) = objectClean v :=
    fun v hm => (ih _ hm).2.1 v (le_refl _)
  have ihPL : ∀ fs : List (String × Json), sizeOf fs < n → ∀ acc, goodProps acc →
      goodProps (propsLoop acc fs) :=
    fun fs hm => (ih _ hm).2.2.2.1 fs (le_refl _)
  have ihPLA : ∀ xs : List Json, sizeOf xs < n → ∀ acc i, goodProps acc →
      goodProps (propsLoopArr acc i xs) :=
    fun xs hm => (ih _ hm).2.2.2.2.1 xs (le_refl _)
  have ihCLi : ∀ xs : List Json, sizeOf xs < n → cleanList (cleanList xs) = cleanList xs :=
    fun xs hm => (ih _ hm).2.2.2.2.2.2.1 xs (le_refl _)
  have ihCS : ∀ fs : List (String × Json), sizeOf fs < n →
      cleanSchema (cleanSchema fs) = cleanSchema fs :=
    fun fs hm => (ih _ hm).2.2.2.2.2.2.2.1 fs (le_refl _)
  have ihCSA : ∀ xs : List Json, sizeOf xs < n →
      cleanSchema (cleanSchemaArr xs) = cleanSchemaArr xs :=
    fun xs hm => (ih _ hm).2.2.2.2.2.2.2.2 xs (le_refl _)
  -- cleanEntryVal is idempotent per key
  have hP2 : ∀ (k : String) (v : Json), sizeOf v ≤ n →
      cleanEntryVal k (cleanEntryVal k v) = cleanEntryVal k v := by
    intro k v hv
    cases v with
    | obj fs =>
      have hfs : sizeOf fs < n := by
        simp only [Json.obj.sizeOf_spec] at hv; omega
      by_cases hk : k = "properties"
      · simp only [cleanEntryVal, if_pos hk]
        have hgood : goodProps (propsLoop [] fs) := ihPL fs hfs [] goodProps_nil
        rw [propsLoop_id hgood]
      · simp only [cleanEntryVal, if_neg hk]
        rw [ihCS fs hfs]
    | arr xs =>
      have hxs : sizeOf xs < n := by
        simp only [Json.arr.sizeOf_spec] at hv; omega
      by_cases hk : k = "properties"
      · simp only [cleanEntryVal, if_pos hk]
        have hgood : goodProps (propsLoopArr [] 0 xs) := ihPLA xs hxs [] 0 goodProps_nil
        rw [propsLoop_id hgood]
      · by_cases hk2 : k = "items"
        · simp only [cleanEntryVal, if_neg hk, if_pos hk2]
          rw [ihCSA xs hxs]
        · by_cases hk3 : k = "anyOf" ∨ k = "oneOf" ∨ k = "allOf"
          · simp only [cleanEntryVal, if_neg hk, if_neg hk2, if_pos hk3]
            rw [ihCLi xs hxs]
          · simp only [cleanEntryVal, if_neg hk, if_neg hk2, if_neg hk3]
    | null => simp [cleanEntryVal]
    | bool b => simp [cleanEntryVal]
    | num m => simp [cleanEntryVal]
    | str s => simp [cleanEntryVal]
  -- objectClean is idempotent
  have hOC : ∀ v : Json, sizeOf v ≤ n → objectClean (objectClean v) = objectClean v := by
    intro v hv
    cases v with
    | obj fs =>
      have hfs : sizeOf fs < n := by
        simp only [Json.obj.sizeOf_spec] at hv; omega
      simp only [objectClean]
      rw [ihCS fs hfs]
    | arr xs =>
      have hxs : sizeOf xs < n := by
        simp only [Json.arr.sizeOf_spec] at hv; omega
      simp only [objectClean]
      rw [ihCSA xs hxs]
    | null => simp [objectClean]
    | bool b => simp [objectClean]
    | num m => simp [objectClean]
    | str s => simp [objectClean]
  -- the cleanSchema loop produces good entries
  have hCL : ∀ fs : List (String × Json), sizeOf fs ≤ n → ∀ acc, goodEntries acc →
      goodEntries (cleanLoop acc fs) := by
    intro fs
    induction fs with
    | nil => intro _ acc hacc; simpa [cleanLoop] using hacc
    | cons p rest ihr =>
      intro hsz acc hacc
      obtain ⟨k, v⟩ := p
      have hszrest : sizeOf rest ≤ n := by
        simp only [List.cons.sizeOf_spec] at hsz; omega
      have hszv : sizeOf v < n := by
        simp only [List.cons.sizeOf_spec, Prod.mk.sizeOf_spec] at hsz; omega
      simp only [cleanLoop]
      split
      · exact ihr hszrest acc hacc
      · rename_i hk
        exact ihr hszrest _ (goodEntries_jsInsert hacc ⟨hk, ihP2 k v hszv⟩)
  -- the properties loop produces good property values
  have hPL : ∀ fs : List (String × Json), sizeOf fs ≤ n → ∀ acc, goodProps acc →
      goodProps (propsLoop acc fs) := by
    intro fs
    induction fs with
    | nil => intro _ acc hacc; simpa [propsLoop] using hacc
    | cons p rest ihr =>
      intro hsz acc hacc
      obtain ⟨k, v⟩ := p
      have hszrest : sizeOf rest ≤ n := by
        simp only [List.cons.sizeOf_spec] at hsz; omega
      have hszv : sizeOf v < n := by
        simp only [List.cons.sizeOf_spec, Prod.mk.sizeOf_spec] at hsz; omega
      simp only [propsLoop]
      exact ihr hszrest _ (goodProps_jsInsert hacc (ihOC v hszv))
  have hPLA : ∀ xs : List Json, sizeOf xs ≤ n → ∀ acc i, goodProps acc →
      goodProps (propsLoopArr acc i xs) := by
    intro xs
    induction xs with
    | nil => intro _ acc i hacc; simpa [propsLoopArr] using hacc
    | cons x rest ihr =>
      intro hsz acc i hacc
      have hszrest : sizeOf rest ≤ n := by
        simp only [List.cons.sizeOf_spec] at hsz; omega
      have hszx : sizeOf x < n := by
        simp only [List.cons.sizeOf_spec] at hsz; omega
      simp only [propsLoopArr]
      exact ihr hszrest _ _ (goodProps_jsInsert hacc (ihOC x hszx))
  have hELA : ∀ xs : List Json, sizeOf xs ≤ n → ∀ acc i, goodEntries acc → numericKeys acc →
      goodEntries (entriesLoopArr acc i xs) ∧ numericKeys (entriesLoopArr acc i xs) := by
    intro xs
    induction xs with
    | nil => intro _ acc i hacc hnum; simpa [entriesLoopArr] using ⟨hacc, hnum⟩
    | cons x rest ihr =>
      intro hsz acc i hacc hnum
      have hszrest : sizeOf rest ≤ n := by
        simp only [List.cons.sizeOf_spec] at hsz; omega
      have hszx : sizeOf x < n := by
        simp only [List.cons.sizeOf_spec] at hsz; omega
      simp only [entriesLoopArr]
      split
      · exact ihr hszrest acc (i + 1) hacc hnum
      · refine ihr hszrest _ (i + 1)
          (goodEntries_jsInsert hacc ⟨natKey_not_mem_unsupported i, ihP2 _ x hszx⟩)
          (numericKeys_jsInsert _ hnum ⟨i, rfl⟩)
  have hCLi : ∀ xs : List Json, sizeOf xs ≤ n → cleanList (cleanList xs) = cleanList xs := by
    intro xs
    induction xs with
    | nil => intro _; simp [cleanList]
    | cons x rest ihr =>
      intro hsz
      have hszrest : sizeOf rest ≤ n := by
        simp only [List.cons.sizeOf_spec] at hsz; omega
      have hszx : sizeOf x < n := by
        simp only [List.cons.sizeOf_spec] at hsz; omega
      simp only [cleanList]
      rw [hOC x (le_of_lt hszx), ihr hszrest]
  have hCS : ∀ fs : List (String × Json), sizeOf fs ≤ n →
      cleanSchema (cleanSchema fs) = cleanSchema fs := by
    intro fs hsz
    have hbase : goodEntries (cleanLoop [] fs) := hCL fs hsz [] goodEntries_nil
    have hout : goodEntries (addObjectDefaults (cleanLoop [] fs)) :=
      goodEntries_addObjectDefaults hbase
    calc cleanSchema (cleanSchema fs)
        = addObjectDefaults (cleanLoop [] (addObjectDefaults (cleanLoop [] fs))) := by
          simp only [cleanSchema]
      _ = addObjectDefaults (addObjectDefaults (cleanLoop [] fs)) := by
          rw [cleanLoop_id hout]
      _ = addObjectDefaults (cleanLoop [] fs) := addObjectDefaults_idem _
      _ = cleanSchema fs := by simp only [cleanSchema]
  have hCSA : ∀ xs : List Json, sizeOf xs ≤ n →
      cleanSchema (cleanSchemaArr xs) = cleanSchemaArr xs := by
    intro xs hsz
    have h1 := hELA xs hsz [] 0 goodEntries_nil (by intro k hk; simp at hk)
    have hnoType : jsLookup (entriesLoopArr [] 0 xs) "type" = none := by
      apply jsLookup_eq_none
      intro hmem
      obtain ⟨m, hm⟩ := h1.2 _ hmem
      exact natKey_ne_type m hm.symm
    have hAOD : addObjectDefaults (entriesLoopArr [] 0 xs) = entriesLoopArr [] 0 xs := by
      simp [addObjectDefaults, isTypeObject, hnoType]
    calc cleanSchema (cleanSchemaArr xs)
        = cleanSchema (entriesLoopArr [] 0 xs) := by
          simp only [cleanSchemaArr]; rw [hAOD]
      _ = addObjectDefaults (cleanLoop [] (entriesLoopArr [] 0 xs)) := by
          simp only [cleanSchema]
      _ = addObjectDefaults (entriesLoopArr [] 0 xs) := by rw [cleanLoop_id h1.1]
      _ = entriesLoopArr [] 0 xs := hAOD
      _ = cleanSchemaArr xs := by simp only [cleanSchemaArr]; rw [hAOD]
  exact ⟨hP2, hOC, hCL, hPL, hPLA, hELA, hCLi, hCS, hCSA⟩

/-- C7.  The schema sanitizer is idempotent: applying `cleanSchema` twice to
any (acyclic, finite) JSON-Schema-shaped record gives the same result as
applying it once — the denylist stripping, the recursion through
`properties`/`items`/`anyOf`/`oneOf`/`allOf` and nested objects, the forced
`additionalProperties: false` and the empty-`properties` injection are all
stable on already-sanitized schemas. -/
theorem cleanSchema_idempotent (fs : List (String × Json)) :
    cleanSchema (cleanSchema fs) = cleanSchema fs :=
  (cleanFacts (sizeOf fs)).2.2.2.2.2.2.2.1 fs (le_refl _)
